import Mathlib

/-!
Verification development for the `doit graph` command
(`src/doit/cmd_graph.py`).

The module inspects a task dependency graph: it strips generator-produced
subtasks into a pending index (`_prepare_lazy_materialisation`), walks the
graph breadth-first from the selected roots re-inserting pending groups on
demand (`_collect_nodes` / `_lazy_materialise`), projects the visited set
into a deterministic list of entries (`_ordered_names` / `_describe_graph`)
and renders them as text (`_print_text`) or JSON.

The embedding below models Python dicts as association lists that keep
insertion order (lookup by key, value replacement in place, new keys
appended at the end), which matches the observable semantics of `dict` for
the operations the module uses.  Python sets are modelled as duplicate-free
lists.  `sorted` on strings is modelled by insertion sort with the
code-point lexicographic order `strLe`.
-/

set_option linter.unusedVariables false

namespace DoitGraph

/-- A task node, keeping the fields of `doit.task.Task` that
`cmd_graph.py` reads: the three dependency lists and the parent-group
marker `subtask_of` (`none` models Python `None`; a present marker is a
non-empty parent name, so truthiness of `getattr(task, 'subtask_of', None)`
coincides with `Option.isSome`). -/
structure Task where
  task_dep : List String
  setup_tasks : List String
  calc_dep : List String
  subtask_of : Option String
deriving DecidableEq, Repr

/-- `control.tasks`: mapping from task name to task, in insertion order. -/
abbrev Registry := List (String × Task)

/-- `self._pending_lazy`: mapping from parent-group name to the group of
pending subtasks (itself a name-to-task mapping). -/
abbrev Pending := List (String × List (String × Task))

/-- Python `name in d` for a dict `d`. -/
def containsKey (l : List (String × Task)) (k : String) : Bool :=
  match l with
  | [] => false
  | (k0, _) :: rest => if k0 = k then true else containsKey rest k

/-- Python `control.tasks.get(name)`. -/
def getTask (reg : Registry) (name : String) : Option Task :=
  match reg with
  | [] => none
  | (k, t) :: rest => if k = name then some t else getTask rest name

/-- Python `d[k] = v`: replace in place if the key exists, else append. -/
def dictInsert (reg : Registry) (k : String) (v : Task) : Registry :=
  match reg with
  | [] => [(k, v)]
  | (k0, v0) :: rest =>
    if k0 = k then (k, v) :: rest else (k0, v0) :: dictInsert rest k v

/-- Python `control.tasks.update(other)`. -/
def dictUpdate (reg : Registry) (kvs : List (String × Task)) : Registry :=
  kvs.foldl (fun acc kv => dictInsert acc kv.1 kv.2) reg

/-- Python `pending[key]` / `key in pending` on the pending index. -/
def lookupGroup (pending : Pending) (key : String) : Option (List (String × Task)) :=
  match pending with
  | [] => none
  | (k, g) :: rest => if k = key then some g else lookupGroup rest key

/-- Python `pending.pop(key)`, restricted to its effect on the mapping. -/
def removeGroup (pending : Pending) (key : String) : Pending :=
  match pending with
  | [] => []
  | (k, g) :: rest => if k = key then rest else (k, g) :: removeGroup rest key

/-- The loop `for group, tasks in pending.items(): if basename in tasks: ...`
from `_lazy_materialise`: first group whose member mapping contains `b`. -/
def findFallback (pending : Pending) (b : String) : Option (List (String × Task)) :=
  match pending with
  | [] => none
  | (_, g) :: rest => if containsKey g b then some g else findFallback rest b

/-- Python `name.split(':', 1)[0]`: the prefix before the first `:`
(the whole string when it has no `:`). -/
def basename (name : String) : String :=
  ⟨name.data.takeWhile (fun c => c ≠ ':')⟩

/-- `Graph._lazy_materialise`, as a function from the mutable state
`(control.tasks, self._pending_lazy)` to its value after the call. -/
def lazy_materialise (reg : Registry) (pending : Pending) (name : String) :
    Registry × Pending :=
  if pending.isEmpty then (reg, pending)
  else
    let b := basename name
    match lookupGroup pending b with
    | some grp => (dictUpdate reg grp, removeGroup pending b)
    | none =>
      match findFallback pending b with
      | some grp => (dictUpdate reg grp, pending)
      | none => (reg, pending)

/-- Insertion into the `defaultdict(dict)` pending index:
`pending[parent][name] = t`, creating the group at the end on first use. -/
def addPending (pending : Pending) (parent name : String) (t : Task) : Pending :=
  match pending with
  | [] => [(parent, [(name, t)])]
  | (k, g) :: rest =>
    if k = parent then (k, g ++ [(name, t)]) :: rest
    else (k, g) :: addPending rest parent name t

/-- One iteration of the `for name, task in list(control.tasks.items())`
loop of `_prepare_lazy_materialisation`: a task with a `subtask_of` marker
is moved from the registry into its pending group, any other task stays. -/
def prepStep (acc : Registry × Pending) (kv : String × Task) : Registry × Pending :=
  match kv.2.subtask_of with
  | some parent => (acc.1, addPending acc.2 parent kv.1 kv.2)
  | none => (acc.1 ++ [kv], acc.2)

/-- `Graph._prepare_lazy_materialisation`: remove every task that carries a
`subtask_of` marker from the registry and group it by that marker. -/
def prepare_lazy_materialisation (tasks0 : Registry) : Registry × Pending :=
  tasks0.foldl prepStep ([], [])

/-- `Graph._get_all_dependencies`: `chain(task.task_dep, task.setup_tasks)`. -/
def get_all_dependencies (t : Task) : List String :=
  t.task_dep ++ t.setup_tasks

/-- Loop state of `_collect_nodes` at exit: the `processed` result set, the
`visited` guard set (listing, most recent first, exactly the names that
passed the guard), and the mutated registry and pending index. -/
structure CollectResult where
  processed : List String
  visited : List String
  tasks : Registry
  pending : Pending
deriving DecidableEq, Repr

/-- The `while queue:` loop of `Graph._collect_nodes`.  `fuel` bounds the
number of iterations; `none` means the bound was hit (the termination
theorem shows some finite fuel always suffices). -/
def collect_nodes_aux (fuel : Nat) (reg : Registry) (pending : Pending)
    (queue : List String) (visited : List String) (processed : List String) :
    Option CollectResult :=
  match fuel with
  | 0 => none
  | fuel + 1 =>
    match queue with
    | [] => some ⟨processed, visited, reg, pending⟩
    | name :: rest =>
      if name ∈ visited then
        collect_nodes_aux fuel reg pending rest visited processed
      else
        let visited' := name :: visited
        let st :=
          match getTask reg name with
          | some _ => (reg, pending)
          | none => lazy_materialise reg pending name
        match getTask st.1 name with
        | none => collect_nodes_aux fuel st.1 st.2 rest visited' processed
        | some task =>
          let deps := (get_all_dependencies task).filter (fun d => ¬ d ∈ visited')
          collect_nodes_aux fuel st.1 st.2 (rest ++ deps) visited' (processed ++ [name])

/-- `Graph._collect_nodes`: breadth-first walk from the selected names with
empty initial visited and processed sets. -/
def collect_nodes (fuel : Nat) (reg : Registry) (pending : Pending)
    (selected : List String) : Option CollectResult :=
  collect_nodes_aux fuel reg pending selected [] []

/-- Code-point lexicographic comparison of character lists, the order
Python `sorted` uses on strings. -/
def lexLe : List Char → List Char → Bool
  | [], _ => true
  | _ :: _, [] => false
  | a :: as, b :: bs =>
    if a.toNat < b.toNat then true
    else if a.toNat = b.toNat then lexLe as bs
    else false

/-- Lexicographic order on strings (by code points, as in Python). -/
def strLe (a b : String) : Prop := lexLe a.data b.data = true

instance : DecidableRel strLe := fun _ _ => inferInstanceAs (Decidable (_ = true))

/-- Python `sorted` on a list of strings. -/
def sortStrings (l : List String) : List String :=
  List.insertionSort strLe l

/-- `Graph._ordered_names`: definition order filtered to the visited set,
then the remaining visited names in sorted order. -/
def ordered_names (def_order : List String) (nodes : List String) : List String :=
  let ordered := def_order.filter (fun n => n ∈ nodes)
  let remaining := nodes.filter (fun n => ¬ n ∈ ordered)
  if remaining.isEmpty then ordered else ordered ++ sortStrings remaining

/-- One output record of `_describe_graph`. -/
structure GraphEntry where
  name : String
  task_dep : List String
  setup : List String
  calc_dep : List String
deriving DecidableEq, Repr

/-- One iteration of the `for name in self._ordered_names(...)` loop of
`_describe_graph`: skip (`continue`) when the name is not in the registry,
else build the entry with its three dependency lists sorted. -/
def describeEntry (reg : Registry) (n : String) : Option GraphEntry :=
  match getTask reg n with
  | none => none
  | some t =>
    some ⟨n, sortStrings t.task_dep, sortStrings t.setup_tasks,
      sortStrings t.calc_dep⟩

/-- `Graph._describe_graph`: one entry per ordered name still present in
the registry, with each dependency list sorted. -/
def describe_graph (reg : Registry) (def_order : List String)
    (nodes : List String) : List GraphEntry :=
  (ordered_names def_order nodes).filterMap (describeEntry reg)

/-- One labelled dependency line: `f"  {label}: {', '.join(values)}\n"`. -/
def depLine (label : String) (values : List String) : String :=
  "  " ++ label ++ ": " ++ String.intercalate ", " values ++ "\n"

/-- The inner `for label, key in self.DEPENDENCY_TYPES` loop of
`_print_text`: one line per non-empty category, in the fixed order
`task_dep`, `setup`, `calc_dep`. -/
def entryLines (e : GraphEntry) : String :=
  (if e.task_dep.isEmpty then "" else depLine "task_dep" e.task_dep)
    ++ (if e.setup.isEmpty then "" else depLine "setup" e.setup)
    ++ (if e.calc_dep.isEmpty then "" else depLine "calc_dep" e.calc_dep)

/-- The `has_dependencies` flag of `_print_text` at the end of the inner
loop: true when some category line was written. -/
def hasDependencies (e : GraphEntry) : Bool :=
  !(e.task_dep.isEmpty && e.setup.isEmpty && e.calc_dep.isEmpty)

/-- Everything `_print_text` writes for a single entry: the name line, the
category lines, the `(no dependencies)` marker when no category line was
written, and the blank separator line. -/
def entryBlock (e : GraphEntry) : String :=
  e.name ++ "\n" ++ entryLines e
    ++ (if hasDependencies e then "" else "  (no dependencies)\n") ++ "\n"

/-- `Graph._print_text`, as the full string written to `outstream`. -/
def print_text (entries : List GraphEntry) : String :=
  entries.foldl (fun acc e => acc ++ entryBlock e) ""

/-- Modelled from the spec: the Python `json` module is outside `src/`.
Spec section 6: a JSON array of objects, each with the keys `name`,
`task_dep`, `setup`, `calc_dep`, pretty-printed with 2-space indentation;
an empty array prints as `[]`.  String payloads here are task names, taken
to need no JSON escaping. -/
def jsonStringLit (s : String) : String := "\"" ++ s ++ "\""

/-- Modelled from the spec: a JSON array of strings at nesting depth given
by `indent`, pretty-printed with 2-space indentation. -/
def jsonStringArray (indent : String) (vs : List String) : String :=
  if vs.isEmpty then "[]"
  else
    "[\n"
      ++ String.intercalate ",\n" (vs.map (fun v => indent ++ "  " ++ jsonStringLit v))
      ++ "\n" ++ indent ++ "]"

/-- Modelled from the spec: one pretty-printed JSON object for an entry. -/
def jsonEntry (e : GraphEntry) : String :=
  "  \x7b\n    \"name\": " ++ jsonStringLit e.name
    ++ ",\n    \"task_dep\": " ++ jsonStringArray "    " e.task_dep
    ++ ",\n    \"setup\": " ++ jsonStringArray "    " e.setup
    ++ ",\n    \"calc_dep\": " ++ jsonStringArray "    " e.calc_dep
    ++ "\n  \x7d"

/-- Modelled from the spec: `json.dump(graph_entries, outstream, indent=2)`;
the empty array renders as `[]`. -/
def json_dump (entries : List GraphEntry) : String :=
  if entries.isEmpty then "[]"
  else "[\n" ++ String.intercalate ",\n" (entries.map jsonEntry) ++ "\n]"

/-- `Graph._execute`, from the resolved selection (computing the selection
from positional arguments is `TaskControl`'s job, outside `src/`).  Returns
the text written to `outstream` and the exit code. -/
def execute (fuel : Nat) (tasks0 : Registry) (def_order : List String)
    (selected : List String) (output : String) : Option (String × Nat) :=
  let prep := prepare_lazy_materialisation tasks0
  match collect_nodes fuel prep.1 prep.2 selected with
  | none => none
  | some r =>
    let entries := describe_graph r.tasks def_order r.processed
    let out :=
      if output = "json" then json_dump entries ++ "\n" else print_text entries
    some (out, 0)

/-! Proof infrastructure for the termination argument: the tasks held by
the two collections, the dependency names they can ever contribute, and the
decreasing measure of the breadth-first loop. -/

/-- The task values stored in a registry. -/
def regTasks (reg : Registry) : List Task := reg.map Prod.snd

/-- The task values stored in all pending groups. -/
def pendingTasks (p : Pending) : List Task :=
  (p.map (fun g => g.2.map Prod.snd)).flatten

/-- Every dependency name any task of the current state can contribute to
the queue. -/
def depsUniverse (reg : Registry) (p : Pending) : List String :=
  ((regTasks reg ++ pendingTasks p).map get_all_dependencies).flatten

/-- The finite set of names the loop can still enqueue-and-expand. -/
def bfsUniverse (reg : Registry) (p : Pending) (queue : List String) : Finset String :=
  queue.toFinset ∪ (depsUniverse reg p).toFinset

/-- The loop measure: unexpanded candidate names weighted by the largest
possible queue growth `B` per expansion, plus the queue length. -/
def bfsMeasure (B : Nat) (reg : Registry) (p : Pending)
    (queue visited : List String) : Nat :=
  (bfsUniverse reg p queue \ visited.toFinset).card * (B + 1) + queue.length

/-- An upper bound on the length of any task's contribution to the queue. -/
def depBound (reg : Registry) (p : Pending) : Nat :=
  ((regTasks reg ++ pendingTasks p).map
    (fun t => (get_all_dependencies t).length)).foldr max 0

/-! Spec-side descriptions used to state the renderer and ordering claims.
These follow the words of the specification and are compared against the
source-derived functions above. -/

/-- Joining with a separator placed between consecutive elements only (the
spec's `one blank separator line between entries` reading when applied with
a newline). -/
def sepJoin (sep : String) : List String → String
  | [] => ""
  | [a] => a
  | a :: rest => a ++ sep ++ sepJoin sep rest

/-- The lines the spec prescribes for one entry: the task name on its own
line, then one labelled line per non-empty dependency category in the fixed
order `task_dep`, `setup`, `calc_dep` with the names comma-joined, or the
single `(no dependencies)` marker line when all three are empty. -/
def specEntryLines (e : GraphEntry) : List String :=
  [e.name ++ "\n"]
    ++ (if e.task_dep.isEmpty then []
        else ["  task_dep: " ++ String.intercalate ", " e.task_dep ++ "\n"])
    ++ (if e.setup.isEmpty then []
        else ["  setup: " ++ String.intercalate ", " e.setup ++ "\n"])
    ++ (if e.calc_dep.isEmpty then []
        else ["  calc_dep: " ++ String.intercalate ", " e.calc_dep ++ "\n"])
    ++ (if e.task_dep.isEmpty && e.setup.isEmpty && e.calc_dep.isEmpty
        then ["  (no dependencies)\n"] else [])

/-- The text the spec prescribes for one entry (its lines, concatenated). -/
def specEntryText (e : GraphEntry) : String :=
  String.join (specEntryLines e)

/-! Concrete inputs used to evaluate the embedding, mirroring the shapes of
the repository's own tests (`src/tests/test_cmd_graph.py`). -/

/-- A generator-produced subtask of `parent` with no dependencies. -/
def subTask (parent : String) : Task := ⟨[], [], [], some parent⟩

/-- An ordinary task with the given `task_dep` list. -/
def plainTask (deps : List String) : Task := ⟨deps, [], [], none⟩

/-- A pending index holding one group keyed `real_parent` whose only member
is named `a:orphan` (the shape of `test_subtask_name_doesnt_match_subtask_of_prefix`). -/
def pendingOrphan : Pending := [("real_parent", [("a:orphan", subTask "real_parent")])]

/-- A pending index holding one group keyed `api` whose only member is
`api:build` (the shape of `test_test_framework_naming_collision`). -/
def pendingApi : Pending := [("api", [("api:build", subTask "api")])]

/-- The naming-collision task list of `test_test_framework_naming_collision`,
extended with a root task `t` depending on `api:smoke`: groups `api` and
`smoke` both pend, and `api:smoke` is a member of group `smoke` while its
truncated prefix is the key of group `api`. -/
def tasksCollision : Registry :=
  [("api", plainTask []),
   ("api:build", subTask "api"),
   ("smoke", plainTask []),
   ("api:smoke", subTask "smoke"),
   ("smoke:run", subTask "smoke"),
   ("t", plainTask ["api:smoke"])]

/-- The dot-separated generator sample of `tests/conftest.py tasks_sample`:
`g1` with subtasks `g1.a` and `g1.b` (names that contain no `:`). -/
def tasksDotted : Registry :=
  [("g1", plainTask ["g1.a", "g1.b"]),
   ("g1.a", subTask "g1"),
   ("g1.b", subTask "g1")]

/-- A registry used to exercise the ordering claim: `b` has unsorted
dependency lists and `a` has none. -/
def regOrd : Registry := [("b", ⟨["z", "a"], ["s"], ["c"], none⟩), ("a", plainTask [])]

/-- A graph entry with no dependencies at all. -/
def entryA : GraphEntry := ⟨"t1", [], [], []⟩

/-- A graph entry with `task_dep` and `setup` dependencies. -/
def entryB : GraphEntry := ⟨"t2", ["a", "b"], ["s"], []⟩

/-! Basic facts about the lexicographic order. -/

theorem lexLe_total (a b : List Char) : lexLe a b = true ∨ lexLe b a = true := by
  induction a generalizing b with
  | nil => left; rfl
  | cons x xs ih =>
    cases b with
    | nil => right; rfl
    | cons y ys =>
      rcases Nat.lt_trichotomy x.toNat y.toNat with h | h | h
      · left; simp [lexLe, h]
      · rcases ih ys with h2 | h2
        · left; simp [lexLe, h, h2]
        · right; simp [lexLe, ← h, h2]
      · right; simp [lexLe, h]

instance : IsTotal String strLe := ⟨fun a b => lexLe_total a.data b.data⟩

theorem lexLe_trans {a b c : List Char} (h1 : lexLe a b = true)
    (h2 : lexLe b c = true) : lexLe a c = true := by
  induction a generalizing b c with
  | nil => rfl
  | cons x xs ih =>
    cases b with
    | nil => simp [lexLe] at h1
    | cons y ys =>
      cases c with
      | nil => simp [lexLe] at h2
      | cons z zs =>
        simp only [lexLe] at h1 h2 ⊢
        split_ifs at h1 h2 ⊢ <;>
          first
            | rfl
            | omega
            | (exact ih h1 h2)

instance : IsTrans String strLe := ⟨fun _ _ _ h1 h2 => lexLe_trans h1 h2⟩

/-! Names held by the two collections. -/

/-- The key set of the registry. -/
def regNames (reg : Registry) : List String := reg.map Prod.fst

/-- The member names of all pending groups together. -/
def memberNames (p : Pending) : List String :=
  (p.map (fun g => g.2.map Prod.fst)).flatten

theorem memberNames_nil : memberNames [] = [] := rfl

theorem memberNames_cons (k : String) (g : List (String × Task)) (rest : Pending) :
    memberNames ((k, g) :: rest) = g.map Prod.fst ++ memberNames rest := rfl

/-! Lemmas about the pending index build. -/

theorem memberNames_addPending (p : Pending) (parent n : String) (t : Task) :
    (memberNames (addPending p parent n t)).Perm (n :: memberNames p) := by
  induction p with
  | nil => simp [addPending, memberNames]
  | cons hd rest ih =>
    obtain ⟨k, g⟩ := hd
    by_cases hk : k = parent
    · subst hk
      rw [addPending, if_pos rfl, memberNames_cons, memberNames_cons]
      simp [List.append_assoc]
    · rw [addPending, if_neg hk, memberNames_cons, memberNames_cons]
      exact (ih.append_left (g.map Prod.fst)).trans List.perm_middle

theorem prep_foldl_names :
    ∀ (l : Registry) (acc : Registry × Pending),
      ((l.foldl prepStep acc).1.map Prod.fst ++ memberNames (l.foldl prepStep acc).2).Perm
        ((acc.1.map Prod.fst ++ memberNames acc.2) ++ l.map Prod.fst)
  | [], acc => by simp
  | (name, task) :: rest, acc => by
    rw [List.foldl_cons]
    refine (prep_foldl_names rest (prepStep acc (name, task))).trans ?_
    have key : ((prepStep acc (name, task)).1.map Prod.fst
        ++ memberNames (prepStep acc (name, task)).2).Perm
        ((acc.1.map Prod.fst ++ memberNames acc.2) ++ [name]) := by
      cases htask : task.subtask_of with
      | some parent =>
        simp only [prepStep, htask]
        refine ((memberNames_addPending acc.2 parent name task).append_left _).trans ?_
        exact List.perm_middle.trans (List.perm_append_singleton _ _).symm
      | none =>
        simp only [prepStep, htask, List.map_append, List.map_cons, List.map_nil]
        have h : (([name] ++ memberNames acc.2)).Perm (memberNames acc.2 ++ [name]) :=
          List.perm_append_comm
        simpa [List.append_assoc] using h.append_left (acc.1.map Prod.fst)
    refine (key.append_right (rest.map Prod.fst)).trans ?_
    simp [List.append_assoc]

/-- After the build, the registry names and the pending member names are a
permutation of the original registry's names. -/
theorem prepare_names_perm (tasks0 : Registry) :
    ((prepare_lazy_materialisation tasks0).1.map Prod.fst
      ++ memberNames (prepare_lazy_materialisation tasks0).2).Perm
      (tasks0.map Prod.fst) := by
  have h := prep_foldl_names tasks0 ([], [])
  simpa [memberNames] using h

/-! Lemmas about `lazy_materialise`. -/

theorem lookupGroup_eq_none (p : Pending) (key : String)
    (h : ∀ g ∈ p, g.1 ≠ key) : lookupGroup p key = none := by
  induction p with
  | nil => rfl
  | cons hd rest ih =>
    obtain ⟨k, g⟩ := hd
    rw [lookupGroup, if_neg (h (k, g) (List.mem_cons_self _ _))]
    exact ih (fun g hg => h g (List.mem_cons_of_mem _ hg))

theorem lookupGroup_eq_none_of_not_mem_keys (p : Pending) (key : String)
    (h : key ∉ p.map Prod.fst) : lookupGroup p key = none := by
  refine lookupGroup_eq_none p key (fun g hg hk => h ?_)
  exact hk ▸ List.mem_map_of_mem Prod.fst hg

theorem findFallback_eq_none (p : Pending) (b : String)
    (h : ∀ g ∈ p, containsKey g.2 b = false) : findFallback p b = none := by
  induction p with
  | nil => rfl
  | cons hd rest ih =>
    obtain ⟨k, g⟩ := hd
    rw [findFallback]
    rw [h (k, g) (List.mem_cons_self _ _)]
    simp only [Bool.false_eq_true, if_false]
    exact ih (fun g hg => h g (List.mem_cons_of_mem _ hg))

theorem removeGroup_sublist (p : Pending) (key : String) :
    (removeGroup p key).Sublist p := by
  induction p with
  | nil => exact List.Sublist.refl _
  | cons hd rest ih =>
    obtain ⟨k, g⟩ := hd
    rw [removeGroup]
    split
    · exact List.sublist_cons_self _ _
    · exact ih.cons₂ _

theorem lookupGroup_removeGroup_self (p : Pending) (key : String)
    (h : (p.map Prod.fst).Nodup) :
    lookupGroup (removeGroup p key) key = none := by
  induction p with
  | nil => rfl
  | cons hd rest ih =>
    obtain ⟨k, g⟩ := hd
    rw [List.map_cons, List.nodup_cons] at h
    rw [removeGroup]
    split
    · rename_i hk
      exact lookupGroup_eq_none_of_not_mem_keys rest key (hk ▸ h.1)
    · rename_i hk
      rw [lookupGroup, if_neg hk]
      exact ih h.2

theorem lazy_materialise_pending_sublist (reg : Registry) (p : Pending)
    (name : String) : ((lazy_materialise reg p name).2).Sublist p := by
  rw [lazy_materialise]
  split
  · exact List.Sublist.refl _
  · cases hl : lookupGroup p (basename name) with
    | some grp => simpa [hl] using removeGroup_sublist p (basename name)
    | none =>
      cases hf : findFallback p (basename name) with
      | some grp => simp [hl, hf]
      | none => simp [hl, hf]

/-- C1 (code_bug evidence): on the shape of the repository's own test
`test_subtask_name_doesnt_match_subtask_of_prefix`, the name `a:orphan` is
held as a member of the pending group `real_parent`, yet
`_lazy_materialise` is a no-op on it (the fallback compares the truncated
prefix `a`, not the full name, against the group members), so the
immediately following registry lookup still fails — the repository's tests
and the method's own docstring require it to succeed. -/
theorem materialize_pending_member_not_found :
    "a:orphan" ∈ memberNames pendingOrphan
      ∧ lazy_materialise [] pendingOrphan "a:orphan" = ([], pendingOrphan)
      ∧ getTask (lazy_materialise [] pendingOrphan "a:orphan").1 "a:orphan" = none := by
  refine ⟨by decide, by decide, by decide⟩

/-- C2 counterexample: materialising `api:smoke` when the pending index
holds the unrelated group `api` leaves `api:smoke` absent from the registry
(the hypothesis of the claim), yet the call is not a no-op: the fast path
moved group `api` into the registry and removed it from the pending index. -/
theorem lazy_materialise_changes_state_though_absent :
    getTask (lazy_materialise [] pendingApi "api:smoke").1 "api:smoke" = none
      ∧ lazy_materialise [] pendingApi "api:smoke" ≠ ([], pendingApi) := by
  refine ⟨by decide, by decide⟩

/-- C2 (amended): if `name` is found by neither path — its truncated
prefix is not a key of any pending group, and is not a member name of any
pending group — then `_lazy_materialise` leaves the registry and the
pending index exactly as they were (and raises no error, being total). -/
theorem lazy_materialise_noop_when_unfound (reg : Registry) (p : Pending)
    (name : String)
    (h1 : ∀ g ∈ p, g.1 ≠ basename name)
    (h2 : ∀ g ∈ p, containsKey g.2 (basename name) = false) :
    lazy_materialise reg p name = (reg, p) := by
  simp only [lazy_materialise, lookupGroup_eq_none p (basename name) h1,
    findFallback_eq_none p (basename name) h2]
  split <;> rfl

/-- C2 witness: the no-op theorem at a concrete input where the queried
name matches no group key and no member name. -/
theorem lazy_materialise_noop_witness :
    lazy_materialise [("t0", plainTask [])] pendingApi "web:smoke"
      = ([("t0", plainTask [])], pendingApi) :=
  lazy_materialise_noop_when_unfound [("t0", plainTask [])] pendingApi "web:smoke"
    (by decide) (by decide)

/-- C3 counterexample: starting from the repository's own dot-separated
sample (`g1` with subtasks `g1.a`, `g1.b`), materialising `g1.a` goes
through the fallback path, which copies the whole group into the registry
but does not remove it from the pending index — afterwards `g1.a` is a
registry key and still a pending member name, so it belongs to both. -/
theorem fallback_leaves_group_pending :
    (getTask (lazy_materialise (prepare_lazy_materialisation tasksDotted).1
        (prepare_lazy_materialisation tasksDotted).2 "g1.a").1 "g1.a").isSome = true
      ∧ "g1.a" ∈ memberNames (lazy_materialise (prepare_lazy_materialisation tasksDotted).1
          (prepare_lazy_materialisation tasksDotted).2 "g1.a").2 := by
  refine ⟨by decide, by decide⟩

/-- C3 (amended): after the pending index is built from a registry with
distinct names, every name is in at most one of the registry and the
pending index; materialisation never adds anything to the pending index
(its group list only ever shrinks, so a removed group never re-enters), and
a fast-path promotion removes the promoted group from the pending index in
the same step.  (A fallback promotion, by contrast, copies the group while
leaving it pending — the counterexample — which is the only part of the
original claim that fails.) -/
theorem pending_registry_separation_amended (tasks0 : Registry)
    (reg : Registry) (p : Pending) (name : String)
    (h0 : (tasks0.map Prod.fst).Nodup)
    (hp : (p.map Prod.fst).Nodup) :
    (∀ n, n ∈ (prepare_lazy_materialisation tasks0).1.map Prod.fst →
        n ∉ memberNames (prepare_lazy_materialisation tasks0).2)
      ∧ ((lazy_materialise reg p name).2).Sublist p
      ∧ ((lookupGroup p (basename name)).isSome →
          lookupGroup (lazy_materialise reg p name).2 (basename name) = none) := by
  refine ⟨?_, lazy_materialise_pending_sublist reg p name, ?_⟩
  · have hperm := (prepare_names_perm tasks0).symm.nodup h0
    rw [List.nodup_append] at hperm
    exact fun n hn hmem => hperm.2.2 hn hmem
  · intro hsome
    cases hl : lookupGroup p (basename name) with
    | none => rw [hl] at hsome; simp at hsome
    | some grp =>
      have hne : p ≠ [] := by
        intro hnil
        rw [hnil] at hl
        simp [lookupGroup] at hl
      have hempty : p.isEmpty = false := by
        cases p with
        | nil => exact absurd rfl hne
        | cons hd tl => rfl
      have hres : (lazy_materialise reg p name).2 = removeGroup p (basename name) := by
        simp only [lazy_materialise, hempty, Bool.false_eq_true, if_false, hl]
      rw [hres]
      exact lookupGroup_removeGroup_self p (basename name) hp

/-- C3 witness: the amended theorem at concrete inputs, here with the fast
path actually firing (`p:x` truncates to the pending group key `p`). -/
theorem pending_registry_separation_witness :
    (∀ n, n ∈ (prepare_lazy_materialisation tasksDotted).1.map Prod.fst →
        n ∉ memberNames (prepare_lazy_materialisation tasksDotted).2)
      ∧ ((lazy_materialise [] [("p", [("p:c", subTask "p")])] "p:x").2).Sublist
          [("p", [("p:c", subTask "p")])]
      ∧ ((lookupGroup [("p", [("p:c", subTask "p")])] (basename "p:x")).isSome →
          lookupGroup (lazy_materialise [] [("p", [("p:c", subTask "p")])] "p:x").2
            (basename "p:x") = none) :=
  pending_registry_separation_amended tasksDotted [] [("p", [("p:c", subTask "p")])]
    "p:x" (by decide) (by decide)

/-- C4 (code_bug evidence): two runs over the naming-collision input that
differ only in the order in which the two siblings of group `smoke`
(`api:smoke` and `smoke:run`) are first referenced produce different final
visited sets: referenced first, `api:smoke` is dropped (its materialise
call pops the prefix-colliding group `api` instead of its own group);
referenced second, it is present. -/
theorem sibling_reference_order_changes_result :
    (collect_nodes 20 (prepare_lazy_materialisation tasksCollision).1
        (prepare_lazy_materialisation tasksCollision).2
        ["api:smoke", "smoke:run"]).map CollectResult.processed
      = some ["smoke:run"]
      ∧ (collect_nodes 20 (prepare_lazy_materialisation tasksCollision).1
          (prepare_lazy_materialisation tasksCollision).2
          ["smoke:run", "api:smoke"]).map CollectResult.processed
        = some ["smoke:run", "api:smoke"] := by
  refine ⟨by decide, by decide⟩

/-- C5 (code_bug evidence): on the naming-collision input, `api:smoke`
exists at the start (as a member of pending group `smoke`) and is reachable
from the root `t` through a `task_dep` edge, yet the emitted set is just
`t`: the traversal's materialise call for `api:smoke` pops the unrelated
group `api` and drops the name, so the visited set is strictly smaller than
roots plus the reachable existing names. -/
theorem closure_misses_existing_reachable_member :
    "api:smoke" ∈ memberNames (prepare_lazy_materialisation tasksCollision).2
      ∧ "api:smoke" ∈ (plainTask ["api:smoke"]).task_dep
      ∧ (collect_nodes 20 (prepare_lazy_materialisation tasksCollision).1
          (prepare_lazy_materialisation tasksCollision).2 ["t"]).map
          CollectResult.processed
        = some ["t"] := by
  refine ⟨by decide, by decide, by decide⟩

/-! String helper lemmas for the renderer claims. -/

theorem strAppendAssoc (a b c : String) : a ++ b ++ c = a ++ (b ++ c) := by
  apply String.ext
  simp

theorem join_cons_str (x : String) (l : List String) :
    String.join (x :: l) = x ++ String.join l := by
  apply String.ext
  simp

theorem print_text_foldl (l : List GraphEntry) :
    ∀ a : String, l.foldl (fun acc e => acc ++ entryBlock e) a
      = a ++ l.foldl (fun acc e => acc ++ entryBlock e) "" := by
  induction l with
  | nil => intro a; simp [String.append_empty]
  | cons x xs ih =>
    intro a
    simp only [List.foldl_cons]
    rw [ih (a ++ entryBlock x), ih ("" ++ entryBlock x), String.empty_append,
      strAppendAssoc]

theorem print_text_cons (e : GraphEntry) (rest : List GraphEntry) :
    print_text (e :: rest) = entryBlock e ++ print_text rest := by
  show (e :: rest).foldl (fun acc x => acc ++ entryBlock x) "" = _
  rw [List.foldl_cons, print_text_foldl rest ("" ++ entryBlock e), String.empty_append]
  rfl

theorem entryBlock_eq (e : GraphEntry) : entryBlock e = specEntryText e ++ "\n" := by
  obtain ⟨n, td, su, cd⟩ := e
  apply String.ext
  cases td <;> cases su <;> cases cd <;>
    simp [entryBlock, entryLines, depLine, hasDependencies, specEntryText,
      specEntryLines]

theorem join_end_with (sfx : String) :
    ∀ l : List String, l ≠ [] → (∀ x ∈ l, ∃ u, x = u ++ sfx) →
      ∃ u, String.join l = u ++ sfx := by
  intro l
  induction l with
  | nil => intro h; exact absurd rfl h
  | cons x rest ih =>
    intro _ h
    cases rest with
    | nil =>
      obtain ⟨u, hu⟩ := h x (List.mem_cons_self _ _)
      refine ⟨u, ?_⟩
      rw [join_cons_str]
      rw [show String.join [] = "" from rfl, String.append_empty, hu]
    | cons y t =>
      obtain ⟨u, hu⟩ := ih (by simp) (fun z hz => h z (List.mem_cons_of_mem _ hz))
      refine ⟨x ++ u, ?_⟩
      rw [join_cons_str, hu, strAppendAssoc]

theorem mem_if_singleton {c : Bool} {x v : String}
    (h : x ∈ if c then ([] : List String) else [v]) : x = v := by
  cases c with
  | true => simp at h
  | false => simpa using h

theorem mem_if_singleton_pos {c : Bool} {x v : String}
    (h : x ∈ if c then [v] else ([] : List String)) : x = v := by
  cases c with
  | true => simpa using h
  | false => simp at h

theorem specEntryText_end (e : GraphEntry) : ∃ u, specEntryText e = u ++ "\n" := by
  refine join_end_with "\n" (specEntryLines e) (by simp [specEntryLines]) ?_
  intro x hx
  simp only [specEntryLines, List.mem_append, List.mem_singleton, or_assoc] at hx
  rcases hx with hx | hx | hx | hx | hx
  · exact ⟨e.name, hx⟩
  · exact ⟨_, mem_if_singleton hx⟩
  · exact ⟨_, mem_if_singleton hx⟩
  · exact ⟨_, mem_if_singleton hx⟩
  · refine ⟨"  (no dependencies)", ?_⟩
    rw [mem_if_singleton_pos hx]
    decide

theorem print_text_join (l : List GraphEntry) :
    print_text l = String.join (l.map (fun e => specEntryText e ++ "\n")) := by
  induction l with
  | nil => rfl
  | cons e rest ih =>
    rw [print_text_cons, entryBlock_eq, ih, List.map_cons, join_cons_str]

/-- C8: the rendered text equals, entry by entry, the layout the spec
prescribes — the name line, one labelled line per non-empty category in
the fixed `task_dep`, `setup`, `calc_dep` order with comma-joined names,
the single `(no dependencies)` marker when all three are empty — with one
blank separator line between entries, and zero bytes for an empty entry
sequence (the trailing `"\n"` after the last entry is the subject of the
separate claim about the trailing separator). -/
theorem print_text_matches_spec_layout (entries : List GraphEntry) :
    print_text entries
      = sepJoin "\n" (entries.map specEntryText)
        ++ (if entries.isEmpty then "" else "\n") := by
  induction entries with
  | nil => rfl
  | cons e rest ih =>
    rw [print_text_cons, entryBlock_eq, ih]
    cases rest with
    | nil =>
      simp [sepJoin, String.append_empty, String.empty_append]
    | cons e2 t =>
      simp only [List.map_cons, List.isEmpty_cons, sepJoin]
      apply String.ext
      simp

/-- C10: the blank separator line is written after every entry, the last
included — the output is exactly the concatenation of the per-entry texts
each followed by its own separator line — so a non-empty rendering always
ends with a trailing blank line. -/
theorem print_text_trailing_blank_line (entries : List GraphEntry)
    (h : entries ≠ []) :
    print_text entries = String.join (entries.map (fun e => specEntryText e ++ "\n"))
      ∧ ∃ u, print_text entries = u ++ "\n\n" := by
  refine ⟨print_text_join entries, ?_⟩
  rw [print_text_join]
  refine join_end_with "\n\n" _ (by simpa using h) ?_
  intro x hx
  rw [List.mem_map] at hx
  obtain ⟨e, _, hxe⟩ := hx
  obtain ⟨u, hu⟩ := specEntryText_end e
  refine ⟨u, ?_⟩
  rw [← hxe, hu, strAppendAssoc]
  have : ("\n" : String) ++ "\n" = "\n\n" := by decide
  rw [this]

/-- C10 witness: the trailing-blank-line theorem at a one-entry list. -/
theorem print_text_trailing_blank_line_witness :
    print_text [entryA] = String.join ([entryA].map (fun e => specEntryText e ++ "\n"))
      ∧ ∃ u, print_text [entryA] = u ++ "\n\n" :=
  print_text_trailing_blank_line [entryA] (by decide)

/-! Lemmas for the ordering claim. -/

theorem sortStrings_perm (l : List String) : (sortStrings l).Perm l :=
  List.perm_insertionSort strLe l

theorem sortStrings_sorted (l : List String) : (sortStrings l).Sorted strLe :=
  List.sorted_insertionSort strLe l

theorem ordered_names_eq (d nodes : List String) :
    ordered_names d nodes
      = d.filter (fun x => x ∈ nodes)
        ++ sortStrings (nodes.filter (fun x => ¬ x ∈ d.filter (fun y => y ∈ nodes))) := by
  rw [ordered_names]
  split
  · rename_i hemp
    rw [List.isEmpty_iff] at hemp
    rw [hemp]
    simp [sortStrings]
  · rfl

theorem filter_not_mem_filter (d nodes : List String) :
    nodes.filter (fun x => ¬ x ∈ d.filter (fun y => y ∈ nodes))
      = nodes.filter (fun x => ¬ x ∈ d) := by
  apply List.filter_congr
  intro a ha
  simp [List.mem_filter, ha]

theorem describe_names (reg : Registry) (l : List String)
    (h : ∀ x ∈ l, (getTask reg x).isSome) :
    (l.filterMap (describeEntry reg)).map GraphEntry.name = l := by
  induction l with
  | nil => rfl
  | cons x rest ih =>
    have hx := h x (List.mem_cons_self _ _)
    rw [Option.isSome_iff_exists] at hx
    obtain ⟨t, ht⟩ := hx
    rw [List.filterMap_cons]
    have hd : describeEntry reg x
        = some ⟨x, sortStrings t.task_dep, sortStrings t.setup_tasks,
            sortStrings t.calc_dep⟩ := by
      rw [describeEntry, ht]
    rw [hd, List.map_cons]
    rw [ih (fun y hy => h y (List.mem_cons_of_mem _ hy))]

theorem describe_mem (reg : Registry) (l : List String) (e : GraphEntry)
    (he : e ∈ l.filterMap (describeEntry reg)) :
    ∃ t, getTask reg e.name = some t
      ∧ e.task_dep = sortStrings t.task_dep
      ∧ e.setup = sortStrings t.setup_tasks
      ∧ e.calc_dep = sortStrings t.calc_dep := by
  rw [List.mem_filterMap] at he
  obtain ⟨a, _, hfa⟩ := he
  rw [describeEntry] at hfa
  cases ht : getTask reg a with
  | none => rw [ht] at hfa; exact absurd hfa (by simp)
  | some t =>
    rw [ht] at hfa
    have he2 : e = ⟨a, sortStrings t.task_dep, sortStrings t.setup_tasks,
        sortStrings t.calc_dep⟩ := by
      exact (Option.some_injective _ hfa).symm
    refine ⟨t, ?_, by rw [he2], by rw [he2], by rw [he2]⟩
    rw [he2]
    exact ht

/-- C7: the emitted entry sequence lists the visited names as the captured
definition-order sequence filtered to the visited set (in that relative
order) followed by the remaining visited names in lexicographic order, and
every entry's three dependency lists are lexicographically sorted
rearrangements of the authored lists, whatever order they were written in.
The registry covers the visited set (true in the pipeline, where every
processed name was looked up there). -/
theorem describe_graph_order_and_sorted (reg : Registry)
    (def_order nodes : List String)
    (hreg : ∀ x ∈ nodes, (getTask reg x).isSome) :
    (∃ rest,
        (describe_graph reg def_order nodes).map GraphEntry.name
            = def_order.filter (fun x => x ∈ nodes) ++ rest
          ∧ rest.Perm (nodes.filter (fun x => ¬ x ∈ def_order))
          ∧ rest.Sorted strLe)
      ∧ ∀ e ∈ describe_graph reg def_order nodes,
          ∃ t, getTask reg e.name = some t
            ∧ e.task_dep.Perm t.task_dep ∧ e.task_dep.Sorted strLe
            ∧ e.setup.Perm t.setup_tasks ∧ e.setup.Sorted strLe
            ∧ e.calc_dep.Perm t.calc_dep ∧ e.calc_dep.Sorted strLe := by
  constructor
  · refine ⟨sortStrings (nodes.filter (fun x => ¬ x ∈ def_order)), ?_, ?_, ?_⟩
    · rw [describe_graph, describe_names, ordered_names_eq, filter_not_mem_filter]
      intro x hx
      rw [ordered_names_eq, filter_not_mem_filter] at hx
      rcases List.mem_append.mp hx with hx | hx
      · rw [List.mem_filter] at hx
        exact hreg x (by simpa using hx.2)
      · have hx2 := (sortStrings_perm _).mem_iff.mp hx
        exact hreg x (List.mem_filter.mp hx2).1
    · exact sortStrings_perm _
    · exact sortStrings_sorted _
  · intro e he
    obtain ⟨t, ht, h1, h2, h3⟩ := describe_mem reg _ e he
    exact ⟨t, ht, h1 ▸ sortStrings_perm _, h1 ▸ sortStrings_sorted _,
      h2 ▸ sortStrings_perm _, h2 ▸ sortStrings_sorted _,
      h3 ▸ sortStrings_perm _, h3 ▸ sortStrings_sorted _⟩

/-- C7 witness: the ordering theorem at a concrete registry where `b` has
unsorted authored lists, definition order `[b]` and visited set `[a, b]`
(so `a` is the name appended after the definition-order part). -/
theorem describe_graph_order_witness :
    (∃ rest,
        (describe_graph regOrd ["b"] ["a", "b"]).map GraphEntry.name
            = (["b"].filter (fun x => x ∈ ["a", "b"])) ++ rest
          ∧ rest.Perm (["a", "b"].filter (fun x => ¬ x ∈ ["b"]))
          ∧ rest.Sorted strLe)
      ∧ ∀ e ∈ describe_graph regOrd ["b"] ["a", "b"],
          ∃ t, getTask regOrd e.name = some t
            ∧ e.task_dep.Perm t.task_dep ∧ e.task_dep.Sorted strLe
            ∧ e.setup.Perm t.setup_tasks ∧ e.setup.Sorted strLe
            ∧ e.calc_dep.Perm t.calc_dep ∧ e.calc_dep.Sorted strLe :=
  describe_graph_order_and_sorted regOrd ["b"] ["a", "b"] (by decide)

/-! Task-containment lemmas: the traversal only ever moves task values
around, it never creates any. -/

theorem getTask_mem {reg : Registry} {name : String} {t : Task}
    (h : getTask reg name = some t) : t ∈ regTasks reg := by
  induction reg with
  | nil => exact absurd h (by simp [getTask])
  | cons hd rest ih =>
    rw [getTask] at h
    split at h
    · have ht : t = hd.2 := (Option.some_injective _ h).symm
      rw [regTasks, List.map_cons, ht]
      exact List.mem_cons_self _ _
    · rw [regTasks, List.map_cons]
      exact List.mem_cons_of_mem _ (ih h)

theorem lookupGroup_mem {p : Pending} {key : String} {grp : List (String × Task)}
    (h : lookupGroup p key = some grp) : ∃ k, (k, grp) ∈ p := by
  induction p with
  | nil => exact absurd h (by simp [lookupGroup])
  | cons hd rest ih =>
    rw [lookupGroup] at h
    split at h
    · have hg : grp = hd.2 := (Option.some_injective _ h).symm
      rw [hg]
      exact ⟨hd.1, List.mem_cons_self _ _⟩
    · obtain ⟨k, hk⟩ := ih h
      exact ⟨k, List.mem_cons_of_mem _ hk⟩

theorem findFallback_mem {p : Pending} {b : String} {grp : List (String × Task)}
    (h : findFallback p b = some grp) : ∃ k, (k, grp) ∈ p := by
  induction p with
  | nil => exact absurd h (by simp [findFallback])
  | cons hd rest ih =>
    rw [findFallback] at h
    split at h
    · have hg : grp = hd.2 := (Option.some_injective _ h).symm
      rw [hg]
      exact ⟨hd.1, List.mem_cons_self _ _⟩
    · obtain ⟨k, hk⟩ := ih h
      exact ⟨k, List.mem_cons_of_mem _ hk⟩

theorem group_tasks_subset {k : String} {grp : List (String × Task)} {p : Pending}
    (hg : (k, grp) ∈ p) : ∀ t ∈ grp.map Prod.snd, t ∈ pendingTasks p := by
  intro t ht
  rw [pendingTasks, List.mem_flatten]
  exact ⟨grp.map Prod.snd, List.mem_map_of_mem _ hg, ht⟩

theorem dictInsert_tasks (reg : Registry) (k : String) (v : Task) :
    ∀ t ∈ regTasks (dictInsert reg k v), t ∈ regTasks reg ∨ t = v := by
  induction reg with
  | nil => intro t ht; simp [dictInsert, regTasks] at ht; exact Or.inr ht
  | cons hd rest ih =>
    intro t ht
    rw [dictInsert] at ht
    split at ht
    · simp only [regTasks, List.map_cons, List.mem_cons] at ht ⊢
      rcases ht with h | h
      · exact Or.inr h
      · exact Or.inl (Or.inr h)
    · simp only [regTasks, List.map_cons, List.mem_cons] at ht ⊢
      rcases ht with h | h
      · exact Or.inl (Or.inl h)
      · rcases ih t h with h2 | h2
        · exact Or.inl (Or.inr h2)
        · exact Or.inr h2

theorem dictUpdate_tasks (kvs : List (String × Task)) :
    ∀ (reg : Registry), ∀ t ∈ regTasks (dictUpdate reg kvs),
      t ∈ regTasks reg ∨ t ∈ kvs.map Prod.snd := by
  induction kvs with
  | nil => intro reg t ht; exact Or.inl ht
  | cons kv rest ih =>
    intro reg t ht
    rw [dictUpdate, List.foldl_cons] at ht
    rcases ih (dictInsert reg kv.1 kv.2) t ht with h | h
    · rcases dictInsert_tasks reg kv.1 kv.2 t h with h2 | h2
      · exact Or.inl h2
      · exact Or.inr (by simp [h2])
    · exact Or.inr (List.mem_cons_of_mem _ h)

theorem sublist_pendingTasks {p' p : Pending} (h : p'.Sublist p) :
    ∀ t ∈ pendingTasks p', t ∈ pendingTasks p := by
  intro t ht
  rw [pendingTasks, List.mem_flatten] at ht ⊢
  obtain ⟨l, hl, htl⟩ := ht
  rw [List.mem_map] at hl
  obtain ⟨g, hg, rfl⟩ := hl
  exact ⟨g.2.map Prod.snd, List.mem_map_of_mem _ (h.subset hg), htl⟩

theorem lazy_materialise_reg_tasks (reg : Registry) (p : Pending) (name : String) :
    ∀ t ∈ regTasks (lazy_materialise reg p name).1,
      t ∈ regTasks reg ∨ t ∈ pendingTasks p := by
  intro t ht
  rw [lazy_materialise] at ht
  split at ht
  · exact Or.inl ht
  · cases hl : lookupGroup p (basename name) with
    | some grp =>
      simp only [hl] at ht
      rcases dictUpdate_tasks grp reg t ht with h | h
      · exact Or.inl h
      · obtain ⟨k, hk⟩ := lookupGroup_mem hl
        exact Or.inr (group_tasks_subset hk t h)
    | none =>
      cases hf : findFallback p (basename name) with
      | some grp =>
        simp only [hl, hf] at ht
        rcases dictUpdate_tasks grp reg t ht with h | h
        · exact Or.inl h
        · obtain ⟨k, hk⟩ := findFallback_mem hf
          exact Or.inr (group_tasks_subset hk t h)
      | none =>
        simp only [hl, hf] at ht
        exact Or.inl ht

theorem lazy_materialise_pending_tasks (reg : Registry) (p : Pending) (name : String) :
    ∀ t ∈ pendingTasks (lazy_materialise reg p name).2, t ∈ pendingTasks p :=
  sublist_pendingTasks (lazy_materialise_pending_sublist reg p name)

theorem mem_depsUniverse {reg : Registry} {p : Pending} {task : Task} {d : String}
    (ht : task ∈ regTasks reg ∨ task ∈ pendingTasks p)
    (hd : d ∈ get_all_dependencies task) : d ∈ depsUniverse reg p := by
  rw [depsUniverse, List.mem_flatten]
  refine ⟨get_all_dependencies task, List.mem_map_of_mem _ ?_, hd⟩
  rw [List.mem_append]
  exact ht

theorem depsUniverse_decompose {reg : Registry} {p : Pending} {d : String}
    (h : d ∈ depsUniverse reg p) :
    ∃ task, (task ∈ regTasks reg ∨ task ∈ pendingTasks p)
      ∧ d ∈ get_all_dependencies task := by
  rw [depsUniverse, List.mem_flatten] at h
  obtain ⟨l, hl, hdl⟩ := h
  rw [List.mem_map] at hl
  obtain ⟨task, htask, rfl⟩ := hl
  rw [List.mem_append] at htask
  exact ⟨task, htask, hdl⟩

theorem depsUniverse_materialise_subset (reg : Registry) (p : Pending) (name : String) :
    ∀ d ∈ depsUniverse (lazy_materialise reg p name).1 (lazy_materialise reg p name).2,
      d ∈ depsUniverse reg p := by
  intro d hd
  obtain ⟨task, ht, hdt⟩ := depsUniverse_decompose hd
  rcases ht with h | h
  · exact mem_depsUniverse (lazy_materialise_reg_tasks reg p name task h) hdt
  · exact mem_depsUniverse (Or.inr (lazy_materialise_pending_tasks reg p name task h)) hdt

theorem le_foldr_max (l : List Nat) : ∀ x ∈ l, x ≤ l.foldr max 0 := by
  induction l with
  | nil => intro x hx; exact absurd hx (by simp)
  | cons y ys ih =>
    intro x hx
    rw [List.foldr_cons]
    rcases List.mem_cons.mp hx with rfl | hx
    · exact Nat.le_max_left _ _
    · exact (ih x hx).trans (Nat.le_max_right _ _)

theorem depBound_le {reg : Registry} {p : Pending} :
    ∀ t, t ∈ regTasks reg ∨ t ∈ pendingTasks p →
      (get_all_dependencies t).length ≤ depBound reg p := by
  intro t ht
  refine le_foldr_max _ _ ?_
  exact List.mem_map_of_mem _ (List.mem_append.mpr ht)

/-! The decreasing-measure argument for the breadth-first loop. -/

theorem bfs_card_decrease {U2 U : Finset String} {visited : List String} {name : String}
    (hU : U2 ⊆ U) (hname : name ∈ U) (hnv : name ∉ visited) :
    (U2 \ (name :: visited).toFinset).card + 1 ≤ (U \ visited.toFinset).card := by
  have hsub : U2 \ (name :: visited).toFinset ⊆ (U \ visited.toFinset).erase name := by
    intro x hx
    rw [Finset.mem_sdiff] at hx
    obtain ⟨hx1, hx2⟩ := hx
    rw [List.toFinset_cons, Finset.mem_insert] at hx2
    push_neg at hx2
    rw [Finset.mem_erase, Finset.mem_sdiff]
    exact ⟨hx2.1, hU hx1, hx2.2⟩
  have hmem : name ∈ U \ visited.toFinset := by
    rw [Finset.mem_sdiff, List.mem_toFinset]
    exact ⟨hname, hnv⟩
  have h1 := Finset.card_le_card hsub
  rw [Finset.card_erase_of_mem hmem] at h1
  have h2 : 1 ≤ (U \ visited.toFinset).card := Finset.card_pos.mpr ⟨name, hmem⟩
  omega

theorem bfsUniverse_tail_subset (reg : Registry) (p : Pending)
    (name : String) (rest : List String) :
    bfsUniverse reg p rest ⊆ bfsUniverse reg p (name :: rest) := by
  refine Finset.union_subset_union ?_ (Finset.Subset.refl _)
  rw [List.toFinset_cons]
  exact Finset.subset_insert _ _

theorem bfsUniverse_drop_subset {reg : Registry} {p : Pending}
    {reg2 : Registry} {p2 : Pending}
    (hU : ∀ d ∈ depsUniverse reg2 p2, d ∈ depsUniverse reg p)
    (name : String) (rest : List String) :
    bfsUniverse reg2 p2 rest ⊆ bfsUniverse reg p (name :: rest) := by
  intro x hx
  rw [bfsUniverse, Finset.mem_union] at hx
  rw [bfsUniverse, Finset.mem_union]
  rcases hx with hx | hx
  · left
    rw [List.mem_toFinset] at hx ⊢
    exact List.mem_cons_of_mem _ hx
  · right
    rw [List.mem_toFinset] at hx ⊢
    exact hU x hx

theorem bfsUniverse_step_subset {reg : Registry} {p : Pending}
    {reg2 : Registry} {p2 : Pending}
    (hU : ∀ d ∈ depsUniverse reg2 p2, d ∈ depsUniverse reg p)
    (name : String) (rest deps : List String)
    (hdeps : ∀ d ∈ deps, d ∈ depsUniverse reg2 p2) :
    bfsUniverse reg2 p2 (rest ++ deps) ⊆ bfsUniverse reg p (name :: rest) := by
  intro x hx
  rw [bfsUniverse, Finset.mem_union] at hx
  rw [bfsUniverse, Finset.mem_union]
  rcases hx with hx | hx
  · rw [List.mem_toFinset, List.mem_append] at hx
    rcases hx with hx | hx
    · left
      rw [List.mem_toFinset]
      exact List.mem_cons_of_mem _ hx
    · right
      rw [List.mem_toFinset]
      exact hU x (hdeps x hx)
  · right
    rw [List.mem_toFinset] at hx ⊢
    exact hU x hx

theorem collect_terminates_aux (B : Nat) :
    ∀ (N : Nat) (reg : Registry) (p : Pending) (queue visited processed : List String),
      (∀ t, t ∈ regTasks reg ∨ t ∈ pendingTasks p →
        (get_all_dependencies t).length ≤ B) →
      bfsMeasure B reg p queue visited ≤ N →
      ∃ r, collect_nodes_aux (N + 1) reg p queue visited processed = some r
        ∧ (visited.Nodup → r.visited.Nodup) := by
  intro N
  induction N using Nat.strong_induction_on with
  | h N ih =>
    intro reg p queue visited processed hB hμ
    cases queue with
    | nil => exact ⟨⟨processed, visited, reg, p⟩, rfl, fun h => h⟩
    | cons name rest =>
      have hq1 : 1 ≤ bfsMeasure B reg p (name :: rest) visited := by
        rw [bfsMeasure, List.length_cons]
        omega
      obtain ⟨M, rfl⟩ : ∃ M, N = M + 1 := ⟨N - 1, by omega⟩
      have hnameU : name ∈ bfsUniverse reg p (name :: rest) := by
        rw [bfsUniverse, Finset.mem_union]
        left
        rw [List.mem_toFinset]
        exact List.mem_cons_self _ _
      by_cases hv : name ∈ visited
      · have hcard := Finset.card_le_card
          (Finset.sdiff_subset_sdiff (bfsUniverse_tail_subset reg p name rest)
            (Finset.Subset.refl visited.toFinset))
        have hμ2 : bfsMeasure B reg p rest visited ≤ M := by
          rw [bfsMeasure, List.length_cons] at hμ
          rw [bfsMeasure]
          have h1 := Nat.mul_le_mul_right (B + 1) hcard
          omega
        obtain ⟨r, hr, hnd⟩ := ih M (by omega) reg p rest visited processed hB hμ2
        refine ⟨r, ?_, hnd⟩
        show collect_nodes_aux (M + 1 + 1) reg p (name :: rest) visited processed = some r
        simp only [collect_nodes_aux]
        rw [if_pos hv]
        exact hr
      · cases hget : getTask reg name with
        | some task =>
          have htask : task ∈ regTasks reg := getTask_mem hget
          have hdepsU : ∀ d ∈ (get_all_dependencies task).filter
              (fun d => ¬ d ∈ name :: visited), d ∈ depsUniverse reg p :=
            fun d hd => mem_depsUniverse (Or.inl htask) (List.mem_of_mem_filter hd)
          have hsubU := bfsUniverse_step_subset (fun d hd => hd) name rest _ hdepsU
          have hcard := bfs_card_decrease hsubU hnameU hv
          have hlen : ((get_all_dependencies task).filter
              (fun d => ¬ d ∈ name :: visited)).length ≤ B :=
            le_trans (List.length_filter_le _ _) (hB task (Or.inl htask))
          have hμ2 : bfsMeasure B reg p
              (rest ++ (get_all_dependencies task).filter
                (fun d => ¬ d ∈ name :: visited)) (name :: visited) ≤ M := by
            rw [bfsMeasure, List.length_cons] at hμ
            rw [bfsMeasure, List.length_append]
            have h1 := Nat.mul_le_mul_right (B + 1) hcard
            rw [Nat.succ_mul] at h1
            omega
          obtain ⟨r, hr, hnd⟩ := ih M (by omega) reg p
            (rest ++ (get_all_dependencies task).filter
              (fun d => ¬ d ∈ name :: visited))
            (name :: visited) (processed ++ [name]) hB hμ2
          refine ⟨r, ?_, fun h => hnd (List.nodup_cons.mpr ⟨hv, h⟩)⟩
          show collect_nodes_aux (M + 1 + 1) reg p (name :: rest) visited processed
            = some r
          simp only [collect_nodes_aux]
          rw [if_neg hv]
          simp only [hget]
          exact hr
        | none =>
          have hB2 : ∀ t, t ∈ regTasks (lazy_materialise reg p name).1
              ∨ t ∈ pendingTasks (lazy_materialise reg p name).2 →
              (get_all_dependencies t).length ≤ B := by
            intro t ht
            rcases ht with h | h
            · exact hB t (lazy_materialise_reg_tasks reg p name t h)
            · exact hB t (Or.inr (lazy_materialise_pending_tasks reg p name t h))
          cases hget2 : getTask (lazy_materialise reg p name).1 name with
          | none =>
            have hsubU := bfsUniverse_drop_subset
              (depsUniverse_materialise_subset reg p name) name rest
            have hcard := bfs_card_decrease hsubU hnameU hv
            have hμ2 : bfsMeasure B (lazy_materialise reg p name).1
                (lazy_materialise reg p name).2 rest (name :: visited) ≤ M := by
              rw [bfsMeasure, List.length_cons] at hμ
              rw [bfsMeasure]
              have h1 := Nat.mul_le_mul_right (B + 1) hcard
              rw [Nat.succ_mul] at h1
              omega
            obtain ⟨r, hr, hnd⟩ := ih M (by omega) (lazy_materialise reg p name).1
              (lazy_materialise reg p name).2 rest (name :: visited) processed hB2 hμ2
            refine ⟨r, ?_, fun h => hnd (List.nodup_cons.mpr ⟨hv, h⟩)⟩
            show collect_nodes_aux (M + 1 + 1) reg p (name :: rest) visited processed
              = some r
            simp only [collect_nodes_aux]
            rw [if_neg hv]
            simp only [hget, hget2]
            exact hr
          | some task =>
            have htask : task ∈ regTasks (lazy_materialise reg p name).1 :=
              getTask_mem hget2
            have hdepsU : ∀ d ∈ (get_all_dependencies task).filter
                (fun d => ¬ d ∈ name :: visited),
                d ∈ depsUniverse (lazy_materialise reg p name).1
                  (lazy_materialise reg p name).2 :=
              fun d hd => mem_depsUniverse (Or.inl htask) (List.mem_of_mem_filter hd)
            have hsubU := bfsUniverse_step_subset
              (depsUniverse_materialise_subset reg p name) name rest _ hdepsU
            have hcard := bfs_card_decrease hsubU hnameU hv
            have hlen : ((get_all_dependencies task).filter
                (fun d => ¬ d ∈ name :: visited)).length ≤ B :=
              le_trans (List.length_filter_le _ _) (hB2 task (Or.inl htask))
            have hμ2 : bfsMeasure B (lazy_materialise reg p name).1
                (lazy_materialise reg p name).2
                (rest ++ (get_all_dependencies task).filter
                  (fun d => ¬ d ∈ name :: visited)) (name :: visited) ≤ M := by
              rw [bfsMeasure, List.length_cons] at hμ
              rw [bfsMeasure, List.length_append]
              have h1 := Nat.mul_le_mul_right (B + 1) hcard
              rw [Nat.succ_mul] at h1
              omega
            obtain ⟨r, hr, hnd⟩ := ih M (by omega) (lazy_materialise reg p name).1
              (lazy_materialise reg p name).2
              (rest ++ (get_all_dependencies task).filter
                (fun d => ¬ d ∈ name :: visited))
              (name :: visited) (processed ++ [name]) hB2 hμ2
            refine ⟨r, ?_, fun h => hnd (List.nodup_cons.mpr ⟨hv, h⟩)⟩
            show collect_nodes_aux (M + 1 + 1) reg p (name :: rest) visited processed
              = some r
            simp only [collect_nodes_aux]
            rw [if_neg hv]
            simp only [hget, hget2]
            exact hr

/-- C6: for every finite input — cyclic dependency graphs included — some
finite fuel makes the breadth-first loop of `_collect_nodes` reach the
empty queue (the loop terminates), and the visited list it builds, which
records exactly the names that ever passed the visited guard and were
expanded, contains no duplicates: each distinct name is expanded at most
once. -/
theorem collect_nodes_terminates_each_name_once (reg : Registry) (p : Pending)
    (selected : List String) :
    ∃ fuel r, collect_nodes fuel reg p selected = some r ∧ r.visited.Nodup := by
  obtain ⟨r, hr, hnd⟩ := collect_terminates_aux (depBound reg p)
    (bfsMeasure (depBound reg p) reg p selected []) reg p selected [] []
    (fun t ht => depBound_le t ht) (le_refl _)
  exact ⟨bfsMeasure (depBound reg p) reg p selected [] + 1, r, hr, hnd List.nodup_nil⟩

/-! Lemmas about the degenerate inputs of `_execute`. -/

theorem collect_empty_reg :
    ∀ (fuel : Nat) (q v pr : List String) (r : CollectResult),
      collect_nodes_aux fuel [] [] q v pr = some r →
      r.processed = pr ∧ r.tasks = [] ∧ r.pending = [] := by
  intro fuel
  induction fuel with
  | zero => intro q v pr r h; exact absurd h (by simp [collect_nodes_aux])
  | succ fuel ih =>
    intro q v pr r h
    cases q with
    | nil =>
      have h2 : r = ⟨pr, v, [], []⟩ := (Option.some_injective _ h).symm
      rw [h2]
      exact ⟨rfl, rfl, rfl⟩
    | cons name rest =>
      by_cases hv : name ∈ v
      · simp only [collect_nodes_aux] at h
        rw [if_pos hv] at h
        exact ih rest v pr r h
      · simp only [collect_nodes_aux] at h
        rw [if_neg hv] at h
        simp [getTask, lazy_materialise] at h
        exact ih rest (name :: v) pr r h

theorem describe_graph_nil (reg : Registry) (d : List String) :
    describe_graph reg d [] = [] := by
  simp [describe_graph, ordered_names, sortStrings]

/-- C9: the core `_execute` exits with code 0 on every input — cycles,
names that cannot be materialised and empty selections or registries are
all success cases (for some finite fuel, since the loop terminates) — and
the empty cases produce an empty well-formed output: zero bytes in text
mode, the empty JSON array plus newline in json mode. -/
theorem execute_returns_zero (tasks0 : Registry) (def_order selected : List String)
    (output : String) :
    ∃ fuel out, execute fuel tasks0 def_order selected output = some (out, 0)
      ∧ ((selected = [] ∨ tasks0 = []) →
          out = if output = "json" then "[]\n" else "") := by
  obtain ⟨r, hr, _⟩ := collect_terminates_aux
    (depBound (prepare_lazy_materialisation tasks0).1 (prepare_lazy_materialisation tasks0).2)
    (bfsMeasure (depBound (prepare_lazy_materialisation tasks0).1
        (prepare_lazy_materialisation tasks0).2)
      (prepare_lazy_materialisation tasks0).1 (prepare_lazy_materialisation tasks0).2
      selected [])
    (prepare_lazy_materialisation tasks0).1 (prepare_lazy_materialisation tasks0).2
    selected [] [] (fun t ht => depBound_le t ht) (le_refl _)
  have hr2 : collect_nodes
      (bfsMeasure (depBound (prepare_lazy_materialisation tasks0).1
          (prepare_lazy_materialisation tasks0).2)
        (prepare_lazy_materialisation tasks0).1 (prepare_lazy_materialisation tasks0).2
        selected [] + 1)
      (prepare_lazy_materialisation tasks0).1 (prepare_lazy_materialisation tasks0).2
      selected = some r := hr
  refine ⟨bfsMeasure (depBound (prepare_lazy_materialisation tasks0).1
        (prepare_lazy_materialisation tasks0).2)
      (prepare_lazy_materialisation tasks0).1 (prepare_lazy_materialisation tasks0).2
      selected [] + 1,
    (if output = "json"
      then json_dump (describe_graph r.tasks def_order r.processed) ++ "\n"
      else print_text (describe_graph r.tasks def_order r.processed)), ?_, ?_⟩
  · simp only [execute, hr2]
  · intro hcase
    have hproc : r.processed = [] := by
      rcases hcase with rfl | rfl
      · have h2 : collect_nodes_aux
            (bfsMeasure (depBound (prepare_lazy_materialisation tasks0).1
                (prepare_lazy_materialisation tasks0).2)
              (prepare_lazy_materialisation tasks0).1
              (prepare_lazy_materialisation tasks0).2 [] [] + 1)
            (prepare_lazy_materialisation tasks0).1
            (prepare_lazy_materialisation tasks0).2 [] [] []
            = some ⟨[], [], (prepare_lazy_materialisation tasks0).1,
                (prepare_lazy_materialisation tasks0).2⟩ := rfl
        have h3 := hr.symm.trans h2
        rw [(Option.some_injective _ h3)]
      · exact (collect_empty_reg _ selected [] [] r hr).1
    rw [hproc, describe_graph_nil]
    by_cases hout : output = "json"
    · rw [if_pos hout, if_pos hout]
      rw [show json_dump [] = "[]" from rfl]
      decide
    · rw [if_neg hout, if_neg hout]
      rfl

/-- C9 witness: the exit-code theorem at the empty input in text mode. -/
theorem execute_returns_zero_witness :
    ∃ fuel out, execute fuel [] [] [] "text" = some (out, 0) ∧ out = "" := by
  obtain ⟨fuel, out, h1, h2⟩ := execute_returns_zero [] [] [] "text"
  have h3 := h2 (Or.inl rfl)
  rw [if_neg (by decide)] at h3
  exact ⟨fuel, out, h1, h3⟩

end DoitGraph
